import Mathlib

/-!
Verification of the Clau plugin semantic-search core against its specification.

The definitions below shallow-embed the numeric and list-processing code of
the repository:

* `src/searcher.ts` — `getDocumentVector`, `cosineSimilarity`,
  `findBestMatchingWord`, `searchIndex`;
* `src/src/indexing/indexer.ts` — `getAverageVector`, `getTfIdfVector`,
  `getSifVector`, `chunkText`, the SIF principal-component post-processing of
  `buildIndex`;
* `src/semantic-search-provider.ts` — `SemanticSearchProvider.search`
  (candidate de-duplication per file and `topK` truncation);
* the pruning engine (`pruneFinalVocab`, `findAndWriteNeighbors`,
  `getWordsToProcess`) and the capping step of the Go CLI (`runPrune`).

JavaScript `number` arithmetic is idealised as `ℝ` (the spec states its
numeric properties, e.g. cosine bounds, in exact real arithmetic).  JS
`Map`/`Set` are modelled as association lists / insertion-ordered
duplicate-free lists, matching the deterministic iteration order of JS
collections.  `Array.prototype.sort` with the comparator
`(a, b) => b.score - a.score` is modelled as a stable merge sort by
descending score, which is what the ECMAScript specification guarantees for
a consistent comparator.
-/

namespace Clau

/-- A vector (JS `number[]`), idealised over `ℝ`. -/
abbrev Vec := List ℝ

/-- Sum of squares of the entries of a vector (the `normA`/`normB`
accumulators of `cosineSimilarity` before the square roots are taken). -/
def sqNorm (v : Vec) : ℝ := (v.map (fun x => x * x)).sum

/-- The dot-product accumulator of `cosineSimilarity`
(`dotProduct += vecA[i] * vecB[i]` for `i < vecA.length`). -/
def dotProduct (vecA vecB : Vec) : ℝ := (List.zipWith (· * ·) vecA vecB).sum

/-- Function `cosineSimilarity` from `src/searcher.ts` lines 57-68 (the same formula
appears in the pruner and in `src/glove-tool.go` lines 209-220): all three
accumulators run over `i < vecA.length`, hence `normB` is computed over the
first `vecA.length` entries of `vecB`; if either accumulated norm is zero the
result is `0`, otherwise `dot / (sqrt normA * sqrt normB)`. -/
noncomputable def cosineSimilarity (vecA vecB : Vec) : ℝ :=
  let dot := dotProduct vecA vecB
  let normA := sqNorm vecA
  let normB := sqNorm (vecB.take vecA.length)
  if normA = 0 ∨ normB = 0 then 0 else dot / (Real.sqrt normA * Real.sqrt normB)

theorem sqNorm_nonneg (v : Vec) : 0 ≤ sqNorm v := by
  apply List.sum_nonneg
  intro x hx
  rcases List.mem_map.mp hx with ⟨y, _, rfl⟩
  exact mul_self_nonneg y

theorem zipWith_mul_take (a : Vec) : ∀ b : Vec,
    List.zipWith (· * ·) a b = List.zipWith (· * ·) a (b.take a.length) := by
  induction a with
  | nil => intro b; simp
  | cons x a ih =>
    intro b
    cases b with
    | nil => simp
    | cons y b => simp [ih b]

theorem zipWith_mul_self (a : Vec) :
    List.zipWith (· * ·) a a = a.map (fun x => x * x) := by
  induction a with
  | nil => simp
  | cons x a ih =>
    simp only [List.zipWith_cons_cons, List.map_cons]
    exact congrArg _ ih

theorem zipWith_mul_comm (a b : Vec) :
    List.zipWith (· * ·) a b = List.zipWith (· * ·) b a :=
  List.zipWith_comm_of_comm _ mul_comm a b

/-- Cauchy–Schwarz for the truncating list dot product. -/
theorem dotProduct_sq_le (a : Vec) : ∀ b : Vec,
    (dotProduct a b) ^ 2 ≤ sqNorm a * sqNorm b := by
  induction a with
  | nil =>
    intro b
    simp [dotProduct, sqNorm]
  | cons x a ih =>
    intro b
    cases b with
    | nil =>
      simp [dotProduct, sqNorm]
    | cons y b =>
      have hA : 0 ≤ sqNorm a := sqNorm_nonneg a
      have hB : 0 ≤ sqNorm b := sqNorm_nonneg b
      have hS : (dotProduct a b) ^ 2 ≤ sqNorm a * sqNorm b := ih b
      have expand : dotProduct (x :: a) (y :: b) = x * y + dotProduct a b := by
        simp [dotProduct]
      have expandA : sqNorm (x :: a) = x * x + sqNorm a := by simp [sqNorm]
      have expandB : sqNorm (y :: b) = y * y + sqNorm b := by simp [sqNorm]
      rw [expand, expandA, expandB]
      rcases eq_or_lt_of_le hB with hB0 | hBpos
      · have hS0 : dotProduct a b = 0 := by
          nlinarith [hS, sq_nonneg (dotProduct a b)]
        rw [hS0, ← hB0]
        nlinarith [mul_nonneg hA (mul_self_nonneg y), sq_nonneg (x * y)]
      · nlinarith [sq_nonneg (x * sqNorm b - y * dotProduct a b),
          mul_nonneg hA hB,
          mul_nonneg (mul_self_nonneg y) (sub_nonneg.mpr hS),
          mul_pos hBpos hBpos]

theorem abs_dotProduct_le (a b : Vec) :
    |dotProduct a b| ≤ Real.sqrt (sqNorm a) * Real.sqrt (sqNorm b) := by
  have h := dotProduct_sq_le a b
  have h1 : |dotProduct a b| = Real.sqrt ((dotProduct a b) ^ 2) := by
    rw [Real.sqrt_sq_eq_abs]
  rw [h1, ← Real.sqrt_mul (sqNorm_nonneg a)]
  exact Real.sqrt_le_sqrt h

theorem cosineSimilarity_eq_of_length_eq (a b : Vec) (h : a.length = b.length) :
    cosineSimilarity a b =
      if sqNorm a = 0 ∨ sqNorm b = 0 then 0
      else dotProduct a b / (Real.sqrt (sqNorm a) * Real.sqrt (sqNorm b)) := by
  simp only [cosineSimilarity]
  rw [h, List.take_length]

theorem cosineSimilarity_bounds (a b : Vec) :
    -1 ≤ cosineSimilarity a b ∧ cosineSimilarity a b ≤ 1 := by
  simp only [cosineSimilarity]
  by_cases h0 : sqNorm a = 0 ∨ sqNorm (b.take a.length) = 0
  · rw [if_pos h0]; norm_num
  · rw [if_neg h0]
    push_neg at h0
    have hA : 0 < sqNorm a := lt_of_le_of_ne (sqNorm_nonneg a) (Ne.symm h0.1)
    have hB : 0 < sqNorm (b.take a.length) :=
      lt_of_le_of_ne (sqNorm_nonneg _) (Ne.symm h0.2)
    have hD : 0 < Real.sqrt (sqNorm a) * Real.sqrt (sqNorm (b.take a.length)) :=
      mul_pos (Real.sqrt_pos.mpr hA) (Real.sqrt_pos.mpr hB)
    have habs : |dotProduct a b| ≤
        Real.sqrt (sqNorm a) * Real.sqrt (sqNorm (b.take a.length)) := by
      rw [dotProduct, zipWith_mul_take a b, ← dotProduct]
      exact abs_dotProduct_le a (b.take a.length)
    have hdiv : |dotProduct a b /
        (Real.sqrt (sqNorm a) * Real.sqrt (sqNorm (b.take a.length)))| ≤ 1 := by
      rw [abs_div, abs_of_pos hD]
      exact (div_le_one hD).mpr habs
    exact abs_le.mp hdiv

theorem cosineSimilarity_self (a : Vec) (ha : sqNorm a ≠ 0) :
    cosineSimilarity a a = 1 := by
  simp only [cosineSimilarity, List.take_length]
  rw [if_neg (by simp [ha])]
  have hdot : dotProduct a a = sqNorm a := by
    rw [dotProduct, zipWith_mul_self, sqNorm]
  rw [hdot, Real.mul_self_sqrt (sqNorm_nonneg a), div_self ha]

/-- C3: For equal-dimension vectors, `cosineSimilarity` is symmetric and
bounded in `[-1, 1]`; it is `1` on any vector of nonzero norm paired with
itself, and `0` whenever either argument has zero norm.  This is the
`cosineSimilarity` of `src/searcher.ts` (identical in the pruner and in
`src/glove-tool.go`). -/
theorem c3_cosineSimilarity_spec (a b : Vec) (h : a.length = b.length) :
    cosineSimilarity a b = cosineSimilarity b a
    ∧ -1 ≤ cosineSimilarity a b
    ∧ cosineSimilarity a b ≤ 1
    ∧ (sqNorm a ≠ 0 → cosineSimilarity a a = 1)
    ∧ ((sqNorm a = 0 ∨ sqNorm b = 0) → cosineSimilarity a b = 0) := by
  refine ⟨?_, (cosineSimilarity_bounds a b).1, (cosineSimilarity_bounds a b).2,
    fun ha => cosineSimilarity_self a ha, ?_⟩
  · rw [cosineSimilarity_eq_of_length_eq a b h,
      cosineSimilarity_eq_of_length_eq b a h.symm]
    by_cases h0 : sqNorm a = 0 ∨ sqNorm b = 0
    · rw [if_pos h0, if_pos h0.symm]
    · rw [if_neg h0, if_neg (fun hc => h0 hc.symm)]
      rw [dotProduct, zipWith_mul_comm, ← dotProduct, mul_comm]
  · intro h0
    rw [cosineSimilarity_eq_of_length_eq a b h, if_pos h0]

/-- Witness for C3 at the concrete vectors `[1, 0]` and `[0, 1]`. -/
theorem c3_cosineSimilarity_spec_witness :
    ([(1:ℝ), 0].length = [(0:ℝ), 1].length)
    ∧ (cosineSimilarity [(1:ℝ), 0] [(0:ℝ), 1] = cosineSimilarity [(0:ℝ), 1] [(1:ℝ), 0]
      ∧ -1 ≤ cosineSimilarity [(1:ℝ), 0] [(0:ℝ), 1]
      ∧ cosineSimilarity [(1:ℝ), 0] [(0:ℝ), 1] ≤ 1
      ∧ (sqNorm [(1:ℝ), 0] ≠ 0 → cosineSimilarity [(1:ℝ), 0] [(1:ℝ), 0] = 1)
      ∧ ((sqNorm [(1:ℝ), 0] = 0 ∨ sqNorm [(0:ℝ), 1] = 0) →
          cosineSimilarity [(1:ℝ), 0] [(0:ℝ), 1] = 0)) :=
  ⟨rfl, c3_cosineSimilarity_spec [(1:ℝ), 0] [(0:ℝ), 1] rfl⟩

/-- ASCII lower-casing of one character (`String.prototype.toLowerCase`;
inputs in scope are ASCII, the Unicode cases are irrelevant here). -/
def toLowerChar (c : Char) : Char :=
  if 'A' ≤ c ∧ c ≤ 'Z' then Char.ofNat (c.toNat + 32) else c

/-- A JS regex `\w` word character: `[A-Za-z0-9_]`. -/
def isWordChar (c : Char) : Bool :=
  (('a' ≤ c ∧ c ≤ 'z') ∨ ('A' ≤ c ∧ c ≤ 'Z') ∨ ('0' ≤ c ∧ c ≤ '9') ∨ c = '_' : Prop)

/-- Accumulator loop extracting the maximal `\w+` runs of a character list
(`text.match(/\b\w+\b/g) || []` returns exactly the maximal word-character
runs, in order). -/
def tokenizeGo (cur : List Char) : List Char → List String
  | [] => if cur = [] then [] else [String.mk cur]
  | c :: cs =>
    if isWordChar c then tokenizeGo (cur ++ [c]) cs
    else if cur = [] then tokenizeGo [] cs
    else String.mk cur :: tokenizeGo [] cs

/-- Models `text.toLowerCase().match(/\b\w+\b/g) || []`. -/
def tokenize (text : String) : List String :=
  tokenizeGo [] (text.data.map toLowerChar)

/-- The stop-word list of `src/searcher.ts` lines 5-26 (the identical list
appears in `src/src/indexing/indexer.ts`). -/
def STOPWORDS : List String := [
  "a", "about", "above", "after", "again", "against", "all", "am", "an", "and",
  "any", "are", "aren\x27t", "as", "at", "be", "because", "been", "before", "being",
  "below", "between", "both", "but", "by", "can\x27t", "cannot", "could", "couldn\x27t",
  "did", "didn\x27t", "do", "does", "doesn\x27t", "doing", "don\x27t", "down", "during",
  "each", "few", "for", "from", "further", "had", "hadn\x27t", "has", "hasn\x27t",
  "have", "haven\x27t", "having", "he", "he\x27d", "he\x27ll", "he\x27s", "her", "here",
  "here\x27s", "hers", "herself", "him", "himself", "his", "how", "how\x27s", "i",
  "i\x27d", "i\x27ll", "i\x27m", "i\x27ve", "if", "in", "into", "is", "isn\x27t", "it", "it\x27s",
  "its", "itself", "let\x27s", "me", "more", "most", "mustn\x27t", "my", "myself",
  "no", "nor", "not", "of", "off", "on", "once", "only", "or", "other", "ought",
  "our", "ours", "ourselves", "out", "over", "own", "same", "shan\x27t", "she",
  "she\x27d", "she\x27ll", "she\x27s", "should", "shouldn\x27t", "so", "some", "such",
  "than", "that", "that\x27s", "the", "their", "theirs", "them", "themselves",
  "then", "there", "there\x27s", "these", "they", "they\x27d", "they\x27ll", "they\x27re",
  "they\x27ve", "this", "those", "through", "to", "too", "under", "until", "up",
  "very", "was", "wasn\x27t", "we", "we\x27d", "we\x27ll", "we\x27re", "we\x27ve", "were",
  "weren\x27t", "what", "what\x27s", "when", "when\x27s", "where", "where\x27s", "which",
  "while", "who", "who\x27s", "whom", "why", "why\x27s", "with", "won\x27t", "would",
  "wouldn\x27t", "you", "you\x27d", "you\x27ll", "you\x27re", "you\x27ve", "your", "yours",
  "yourself", "yourselves"]

/-- The word → vector table (JS `Map<string, number[]>`), modelled as an
association list in insertion order (JS `Map` iteration order). -/
abbrev WordVectorMap := List (String × Vec)

/-- Models `vectors.get(word)` on the association-list model. -/
def vmGet (vectors : WordVectorMap) (word : String) : Option Vec :=
  (vectors.find? (fun p => p.1 == word)).map (·.2)

/-- The summation loop shared by all aggregators:
`sumVector = new Array(dimension).fill(0)` followed by
`sumVector[i] += vec[i]` for every found vector.  All vectors taking part in
one aggregation share the dimension (spec §3), which the truncating
`zipWith` relies on. -/
def sumVectors (dim : ℕ) (vecs : List Vec) : Vec :=
  vecs.foldl (fun acc v => List.zipWith (· + ·) acc v) (List.replicate dim 0)

/-- Function `getAverageVector` from `src/src/indexing/indexer.ts` lines 186-206:
drop unknown tokens, return `null` when nothing resolves, otherwise the
arithmetic mean of the found vectors. -/
noncomputable def getAverageVector (words : List String) (vectors : WordVectorMap) :
    Option Vec :=
  let knownVectors := words.filterMap (vmGet vectors)
  match knownVectors with
  | [] => none
  | v0 :: _ =>
    some ((sumVectors v0.length knownVectors).map
      (fun x => x / (knownVectors.length : ℝ)))

/-- Function `getDocumentVector` from `src/searcher.ts` lines 29-50: lower-cased
word tokens with stop words removed, then the body of `getAverageVector`
verbatim. -/
noncomputable def getDocumentVector (text : String) (vectors : WordVectorMap) :
    Option Vec :=
  getAverageVector ((tokenize text).filter (fun w => !(STOPWORDS.contains w))) vectors

/-- The `(word, vector)` pairs that resolve in the table — the
`knownVectors` list of `getTfIdfVector`/`getSifVector` (indexer.ts
lines 213-215 / 241-243). -/
def knownPairs (words : List String) (vectors : WordVectorMap) : List (String × Vec) :=
  words.filterMap (fun w => (vmGet vectors w).map (fun v => (w, v)))

/-- Models `scores.get(word) || 0` (an absent key and a stored `0` both give `0`). -/
def scoresGet (scores : List (String × ℝ)) (word : String) : ℝ :=
  ((scores.find? (fun p => p.1 == word)).map (·.2)).getD 0

/-- The common body of `getTfIdfVector` (indexer.ts lines 208-233) and
`getSifVector` (lines 235-262); the two functions differ only in how the
per-word weight is computed. -/
noncomputable def weightedVector (weight : String → ℝ) (words : List String)
    (vectors : WordVectorMap) : Option Vec :=
  let known := knownPairs words vectors
  match known with
  | [] => none
  | p0 :: _ =>
    let sumVector := known.foldl
      (fun acc p => List.zipWith (· + ·) acc (p.2.map (· * weight p.1)))
      (List.replicate p0.2.length 0)
    let totalWeight := (known.map (fun p => weight p.1)).sum
    if totalWeight = 0 then none else some (sumVector.map (fun x => x / totalWeight))

/-- Function `getTfIdfVector`: weight `tfIdfScores.get(word) || 0`. -/
noncomputable def getTfIdfVector (words : List String) (vectors : WordVectorMap)
    (tfIdfScores : List (String × ℝ)) : Option Vec :=
  weightedVector (fun w => scoresGet tfIdfScores w) words vectors

/-- Function `getSifVector`: weight `smoothing / (smoothing + (wordProbs.get(word) || 0))`. -/
noncomputable def getSifVector (words : List String) (vectors : WordVectorMap)
    (wordProbs : List (String × ℝ)) (smoothing : ℝ) : Option Vec :=
  weightedVector (fun w => smoothing / (smoothing + scoresGet wordProbs w)) words vectors

theorem zipWith_add_map_mul (c : ℝ) (a : Vec) : ∀ v : Vec,
    List.zipWith (· + ·) (a.map (· * c)) (v.map (· * c))
      = (List.zipWith (· + ·) a v).map (· * c) := by
  induction a with
  | nil => intro v; simp
  | cons x a ih =>
    intro v
    cases v with
    | nil => simp
    | cons y v => simp [ih v, add_mul]

theorem foldl_add_map_mul (c : ℝ) : ∀ (vs : List Vec) (a : Vec),
    vs.foldl (fun acc v => List.zipWith (· + ·) acc (v.map (· * c))) (a.map (· * c))
      = (vs.foldl (fun acc v => List.zipWith (· + ·) acc v) a).map (· * c) := by
  intro vs
  induction vs with
  | nil => intro a; simp
  | cons v vs ih =>
    intro a
    simp only [List.foldl_cons]
    rw [zipWith_add_map_mul c a v, ih (List.zipWith (· + ·) a v)]

theorem zipWith_add_replicate_zero (v : Vec) :
    List.zipWith (· + ·) (List.replicate v.length (0:ℝ)) v = v := by
  induction v with
  | nil => simp
  | cons x v ih => simp [List.replicate_succ, ih]

theorem knownPairs_map_snd (words : List String) (vectors : WordVectorMap) :
    (knownPairs words vectors).map (·.2) = words.filterMap (vmGet vectors) := by
  rw [knownPairs, List.map_filterMap]
  congr 1
  funext w
  cases vmGet vectors w <;> simp

/-- Averaging a single resolvable word returns exactly that word's vector. -/
theorem getAverageVector_single (w : String) (v : Vec) (vm : WordVectorMap)
    (hw : vmGet vm w = some v) : getAverageVector [w] vm = some v := by
  rw [getAverageVector]
  simp only [List.filterMap_cons, hw, List.filterMap_nil]
  rw [sumVectors, List.foldl_cons, List.foldl_nil, zipWith_add_replicate_zero]
  simp

/-- Equal nonzero weights collapse the weighted mean to the plain mean. -/
theorem weightedVector_const_weight (weight : String → ℝ) (c : ℝ) (hc : c ≠ 0)
    (words : List String) (vectors : WordVectorMap)
    (hw : ∀ p ∈ knownPairs words vectors, weight p.1 = c) :
    weightedVector weight words vectors = getAverageVector words vectors := by
  have hk' := knownPairs_map_snd words vectors
  cases hk : knownPairs words vectors with
  | nil =>
    have hkv : words.filterMap (vmGet vectors) = [] := by rw [← hk', hk]; rfl
    simp [weightedVector, getAverageVector, hk, hkv]
  | cons p0 rest =>
    rw [hk] at hw
    have hkv : words.filterMap (vmGet vectors) = p0.2 :: rest.map (·.2) := by
      rw [← hk', hk]; rfl
    have hW : weightedVector weight words vectors =
        (if ((p0 :: rest).map (fun p => weight p.1)).sum = 0 then none
         else some (((p0 :: rest).foldl
            (fun acc p => List.zipWith (· + ·) acc (p.2.map (· * weight p.1)))
            (List.replicate p0.2.length 0)).map
              (fun x => x / ((p0 :: rest).map (fun p => weight p.1)).sum))) := by
      simp only [weightedVector, hk]
    have hA : getAverageVector words vectors =
        some ((sumVectors p0.2.length (p0.2 :: rest.map (·.2))).map
          (fun x => x / ((p0.2 :: rest.map (·.2)).length : ℝ))) := by
      simp only [getAverageVector, hkv]
    rw [hW, hA]
    have hwc : (p0 :: rest).map (fun p => weight p.1) = (p0 :: rest).map (fun _ => c) :=
      List.map_congr_left (fun p hp => hw p hp)
    have hsumconst : ∀ (l : List (String × Vec)),
        (l.map (fun _ => c)).sum = (l.length : ℝ) * c := by
      intro l
      induction l with
      | nil => simp
      | cons q l ih =>
        simp only [List.map_cons, List.sum_cons, ih, List.length_cons]
        push_cast
        ring
    have hweights : ((p0 :: rest).map (fun p => weight p.1)).sum
        = ((p0 :: rest).length : ℝ) * c := by
      rw [hwc, hsumconst]
    have hlen : (0 : ℝ) < ((p0 :: rest).length : ℝ) := by
      simp only [List.length_cons]
      positivity
    have htw : ((p0 :: rest).length : ℝ) * c ≠ 0 := mul_ne_zero (ne_of_gt hlen) hc
    have hfold : (p0 :: rest).foldl
        (fun acc p => List.zipWith (· + ·) acc (p.2.map (· * weight p.1)))
        (List.replicate p0.2.length 0)
        = (sumVectors p0.2.length (p0.2 :: rest.map (·.2))).map (· * c) := by
      have hcongr : ∀ (a : Vec) (l : List (String × Vec)), (∀ p ∈ l, weight p.1 = c) →
          l.foldl (fun acc p => List.zipWith (· + ·) acc (p.2.map (· * weight p.1))) a
            = l.foldl (fun acc p => List.zipWith (· + ·) acc (p.2.map (· * c))) a := by
        intro a l
        induction l generalizing a with
        | nil => exact fun _ => rfl
        | cons q l ih =>
          intro hl
          simp only [List.foldl_cons]
          rw [hl q (List.mem_cons_self q l)]
          exact ih _ (fun p hp => hl p (List.mem_cons_of_mem q hp))
      rw [hcongr _ _ hw]
      have hmap : ((p0 :: rest).map (·.2)).foldl
          (fun acc v => List.zipWith (· + ·) acc (v.map (· * c)))
          (List.replicate p0.2.length 0)
          = (p0 :: rest).foldl
            (fun acc p => List.zipWith (· + ·) acc (p.2.map (· * c)))
            (List.replicate p0.2.length 0) := List.foldl_map _ _ _ _
      rw [← hmap]
      have hrep : (List.replicate p0.2.length (0:ℝ))
          = (List.replicate p0.2.length (0:ℝ)).map (· * c) := by
        simp
      rw [hrep, foldl_add_map_mul c, sumVectors, List.map_cons]
    rw [hweights, if_neg htw, hfold]
    congr 1
    rw [List.map_map]
    apply List.map_congr_left
    intro x _
    have hN : ((p0 :: rest).length : ℝ) = ((p0.2 :: rest.map (·.2)).length : ℝ) := by
      simp
    simp only [Function.comp_apply]
    rw [← hN, mul_comm x c, mul_comm (((p0 :: rest).length : ℝ)) c,
      mul_div_mul_left _ _ hc]

/-- C8: part (i) `Average` aggregation of a single resolvable word returns
exactly that word's vector; (ii) `getTfIdfVector` coincides with
`getAverageVector` whenever every resolved token carries the same nonzero
TF-IDF weight; (iii) `getSifVector` coincides with `getAverageVector`
whenever every resolved token receives the same nonzero SIF weight. -/
theorem c8_aggregation_reduction (w : String) (v : Vec) (vm : WordVectorMap)
    (words : List String) (tfIdfScores wordProbs : List (String × ℝ))
    (smoothing cT cS : ℝ)
    (hw : vmGet vm w = some v)
    (hcT : cT ≠ 0)
    (hT : ∀ p ∈ knownPairs words vm, scoresGet tfIdfScores p.1 = cT)
    (hcS : cS ≠ 0)
    (hS : ∀ p ∈ knownPairs words vm,
      smoothing / (smoothing + scoresGet wordProbs p.1) = cS) :
    getAverageVector [w] vm = some v
    ∧ getTfIdfVector words vm tfIdfScores = getAverageVector words vm
    ∧ getSifVector words vm wordProbs smoothing = getAverageVector words vm := by
  exact ⟨getAverageVector_single w v vm hw,
    weightedVector_const_weight _ cT hcT words vm hT,
    weightedVector_const_weight _ cS hcS words vm hS⟩

/-- Witness for C8: table `{cat ↦ [1]}`, token list `["cat"]`, constant
TF-IDF weight `2` and constant SIF weight `1` (`smoothing = 1`, empty
probability table). -/
theorem c8_aggregation_reduction_witness :
    vmGet [("cat", [(1:ℝ)])] "cat" = some [(1:ℝ)]
    ∧ (getAverageVector ["cat"] [("cat", [(1:ℝ)])] = some [(1:ℝ)]
      ∧ getTfIdfVector ["cat"] [("cat", [(1:ℝ)])] [("cat", 2)]
          = getAverageVector ["cat"] [("cat", [(1:ℝ)])]
      ∧ getSifVector ["cat"] [("cat", [(1:ℝ)])] [] 1
          = getAverageVector ["cat"] [("cat", [(1:ℝ)])]) := by
  have hw : vmGet [("cat", [(1:ℝ)])] "cat" = some [(1:ℝ)] := rfl
  refine ⟨hw, c8_aggregation_reduction "cat" [(1:ℝ)] [("cat", [(1:ℝ)])] ["cat"]
    [("cat", 2)] [] 1 2 1 hw (by norm_num) ?_ (by norm_num) ?_⟩
  · intro p hp
    have : p = ("cat", [(1:ℝ)]) := by
      simpa [knownPairs, vmGet] using hp
    rw [this]
    rfl
  · intro p hp
    have : p = ("cat", [(1:ℝ)]) := by
      simpa [knownPairs, vmGet] using hp
    rw [this]
    show (1:ℝ) / (1 + scoresGet [] "cat") = 1
    rw [show scoresGet [] "cat" = 0 from rfl]
    norm_num

/-- JS regex `\s` / `String.prototype.trim` whitespace, restricted to the
ASCII whitespace characters (the Unicode space characters are irrelevant to
the inputs in scope). -/
def isWs (c : Char) : Bool :=
  (c = ' ' ∨ c = '\t' ∨ c = '\n' ∨ c = '\r' ∨ c = '\x0b' ∨ c = '\x0c' : Prop)

/-- Models `String.prototype.trim`: drop leading and trailing whitespace. -/
def trimChars (l : List Char) : List Char :=
  ((l.dropWhile isWs).reverse.dropWhile isWs).reverse

/-- The index of the last `'\n'` inside the maximal whitespace prefix of the
list, if any.  This is the backtracking behaviour of the greedy `\s*` in the
separator regex `/\n\s*\n/`: the `\s*` extends as far as possible subject to
a final `'\n'` being available. -/
def lastNlIdx : List Char → Option ℕ
  | [] => none
  | c :: cs =>
    if isWs c then
      match lastNlIdx cs with
      | some j => some (j + 1)
      | none => if c = '\n' then some 0 else none
    else none

/-- Length of the leftmost-and-greedy match of `/\n\s*\n/` at the head of
the list (`none` if the regex does not match at this position). -/
def sepLen (l : List Char) : Option ℕ :=
  match l with
  | [] => none
  | c :: cs => if c = '\n' then (lastNlIdx cs).map (fun j => j + 2) else none

theorem lastNlIdx_lt_length : ∀ (l : List Char) (j : ℕ),
    lastNlIdx l = some j → j < l.length := by
  intro l
  induction l with
  | nil => intro j h; simp [lastNlIdx] at h
  | cons c cs ih =>
    intro j h
    simp only [lastNlIdx] at h
    by_cases hws : isWs c
    · rw [if_pos hws] at h
      cases hrec : lastNlIdx cs with
      | some j0 =>
        rw [hrec] at h
        simp only [Option.some.injEq] at h
        have := ih j0 hrec
        simp only [List.length_cons]
        omega
      | none =>
        rw [hrec] at h
        by_cases hnl : c = '\n'
        · rw [if_pos hnl] at h
          simp only [Option.some.injEq] at h
          simp [← h]
        · rw [if_neg hnl] at h
          simp at h
    · rw [if_neg hws] at h
      simp at h

theorem sepLen_pos_le : ∀ (l : List Char) (n : ℕ),
    sepLen l = some n → 0 < n ∧ n ≤ l.length := by
  intro l n h
  cases l with
  | nil => simp [sepLen] at h
  | cons c cs =>
    simp only [sepLen] at h
    by_cases hnl : c = '\n'
    · rw [if_pos hnl] at h
      cases hrec : lastNlIdx cs with
      | some j =>
        rw [hrec] at h
        simp only [Option.map_some', Option.some.injEq] at h
        have := lastNlIdx_lt_length cs j hrec
        simp only [List.length_cons]
        omega
      | none => rw [hrec] at h; simp at h
    · rw [if_neg hnl] at h
      simp at h

/-- The splitting loop of `text.split(/\n\s*\n/)`: scan left to right; at a
separator match emit the current segment and restart after the match;
otherwise move one character into the current segment.  The `fuel` argument
only makes the recursion structural: every step consumes at least one input
character (`sepLen_pos_le`), so with initial fuel `l.length` the fuel never
runs out before the input does, and the `fuel = 0` branch coincides with the
exhausted-input branch. -/
def splitChunksGo : ℕ → List Char → List Char → List (List Char)
  | 0, cur, _ => [cur]
  | fuel + 1, cur, l =>
    match sepLen l with
    | some n => cur :: splitChunksGo fuel [] (l.drop n)
    | none =>
      match l with
      | [] => [cur]
      | c :: cs => splitChunksGo fuel (cur ++ [c]) cs

/-- Models `text.split(/\n\s*\n/)` on the character list of the text. -/
def splitChunks (l : List Char) : List (List Char) := splitChunksGo l.length [] l

/-- Function `chunkText` from `src/src/indexing/indexer.ts` lines 266-267 (identical
in `src/indexer.ts` lines 7-8):
`text.split(/\n\s*\n/).filter((p) => p.trim().length > 0)` — note the
*untrimmed* segment `p` is what survives the filter. -/
def chunkText (text : String) : List String :=
  ((splitChunks text.data).filter (fun p => 0 < (trimChars p).length)).map
    (fun cs => String.mk cs)

/-- Modelled from the spec: §4.3 says the chunker returns "the non-empty
trimmed segments" of the blank-line split.  This second definition follows
those words (trim each segment, keep the non-empty ones) and exists only to
be compared with the source-derived `chunkText`. -/
def chunkTextSpecModel (text : String) : List String :=
  (((splitChunks text.data).map trimChars).filter (fun p => p ≠ [])).map
    (fun cs => String.mk cs)

/-- C9 counterexample: on `"a\n\n b"` the code returns the untrimmed
segment `" b"`, not the trimmed `"b"` that the claim ("returns exactly the
non-empty trimmed segments") prescribes. -/
theorem c9_chunkText_counterexample :
    chunkText "a\n\n b" ≠ chunkTextSpecModel "a\n\n b"
    ∧ chunkText "a\n\n b" = ["a", " b"]
    ∧ chunkTextSpecModel "a\n\n b" = ["a", "b"] := by
  refine ⟨?_, by decide, by decide⟩
  decide

/-- C9 amended: the chunker splits on blank-line boundaries and keeps,
in original order, exactly the segments whose *trimmed* form is non-empty —
but it returns them untrimmed (trimming is applied only for the emptiness
test): mapping `trim` over the result recovers the spec's list of non-empty
trimmed segments, and every returned segment has a non-empty trim. -/
theorem c9_chunkText_amended (text : String) :
    (chunkText text).map (fun s => String.mk (trimChars s.data))
      = chunkTextSpecModel text
    ∧ ∀ s ∈ chunkText text, trimChars s.data ≠ [] := by
  constructor
  · rw [chunkText, chunkTextSpecModel]
    have h : ∀ l : List (List Char),
        ((l.filter (fun p => 0 < (trimChars p).length)).map
            (fun cs => String.mk cs)).map (fun s => String.mk (trimChars s.data))
          = ((l.map trimChars).filter (fun p => p ≠ [])).map (fun cs => String.mk cs) := by
      intro l
      induction l with
      | nil => rfl
      | cons p l ih =>
        simp only [List.map_cons, List.filter_cons]
        by_cases hp : 0 < (trimChars p).length
        · have hne : trimChars p ≠ [] := by
            intro hc
            rw [hc] at hp
            simp at hp
          simp [hp, hne, ih]
        · have heq : trimChars p = [] := by
            cases hcc : trimChars p with
            | nil => rfl
            | cons x xs => rw [hcc] at hp; simp at hp
          simp [hp, heq, ih]
    exact h (splitChunks text.data)
  · intro s hs
    rw [chunkText] at hs
    rcases List.mem_map.mp hs with ⟨cs, hcs, rfl⟩
    have := List.of_mem_filter hcs
    simp only [decide_eq_true_eq] at this
    intro hc
    have hdata : (String.mk cs).data = cs := rfl
    rw [hdata] at hc
    rw [hc] at this
    simp at this

/-- Witness for the amended C9 at the concrete text of the counterexample. -/
theorem c9_chunkText_amended_witness :
    (chunkText "a\n\n b").map (fun s => String.mk (trimChars s.data))
      = chunkTextSpecModel "a\n\n b" :=
  (c9_chunkText_amended "a\n\n b").1

/-- The projection-subtraction `v' = v − (v·u)u` inlined in
`src/src/indexing/indexer.ts` lines 393-401 (the identical loop appears in
`src/semantic-search-provider.ts` lines 325-333 and 197-205):
`dotProduct += v[j] * u[j]`, `projected = u.map(val => val * dotProduct)`,
`v.map((val, j) => val - projected[j])`. -/
def subtractProjection (principalComponent v : Vec) : Vec :=
  let dot := (List.zipWith (· * ·) v principalComponent).sum
  let projected := principalComponent.map (· * dot)
  List.zipWith (· - ·) v projected

/-- The SIF post-processing block of `buildIndex`
(`src/src/indexing/indexer.ts` lines 384-402): when the strategy is SIF and
`chunkEmbeddings.length > 0`, the first eigenvector of the `ml-pca`
decomposition (the external library is abstracted as the parameter `pca`)
is stored and its projection is subtracted from every chunk embedding;
otherwise the embeddings are untouched and the stored component is `null`. -/
def sifPostProcess (pca : List Vec → Vec) (chunkEmbeddings : List Vec) :
    List Vec × Option Vec :=
  if 0 < chunkEmbeddings.length then
    (chunkEmbeddings.map (fun e => subtractProjection (pca chunkEmbeddings) e),
      some (pca chunkEmbeddings))
  else (chunkEmbeddings, none)

/-- C7 code bug: the guard in `buildIndex` is
`chunkEmbeddings.length > 0`, not `≥ 2`: an index build that produces
exactly one chunk vector still runs the (degenerate) PCA correction and
stores a non-null principal component, and the single vector is modified —
the correction is skipped, with `null` stored, only for zero vectors. -/
theorem c7_pca_guard (pca : List Vec → Vec) (v : Vec) :
    (sifPostProcess pca [v]).2 ≠ none
    ∧ (∀ embs : List Vec, (sifPostProcess pca embs).2 = none ↔ embs = [])
    ∧ (sifPostProcess (fun _ => [(2:ℝ)]) [[(3:ℝ)]]).1 ≠ [[(3:ℝ)]] := by
  refine ⟨by simp [sifPostProcess], ?_, ?_⟩
  · intro embs
    cases embs with
    | nil => simp [sifPostProcess]
    | cons e es => simp [sifPostProcess]
  · simp only [sifPostProcess, subtractProjection]
    norm_num

/-- Witness for C7 at `pca = const [1]`, single chunk vector `[1]`. -/
theorem c7_pca_guard_witness :
    (sifPostProcess (fun _ => [(1:ℝ)]) [[(1:ℝ)]]).2 ≠ none :=
  (c7_pca_guard (fun _ => [(1:ℝ)]) [(1:ℝ)]).1

/-- Record `IndexedItem` with fields file, text, embedding. -/
structure IndexedItem where
  file : String
  text : String
  embedding : Vec

/-- Record `SearchResult`: the IndexedItem fields plus score and an optional highlight word. -/
structure SearchResult where
  file : String
  text : String
  embedding : Vec
  score : ℝ
  highlightWord : Option String

/-- The comparator `(a, b) => b.score - a.score` as the boolean order used
by the stable sort: `a` may precede `b` iff `b.score ≤ a.score`. -/
noncomputable def scoreLE (a b : SearchResult) : Bool :=
  @decide (b.score ≤ a.score) (Classical.propDecidable _)

theorem scoreLE_trans : ∀ a b c : SearchResult,
    scoreLE a b → scoreLE b c → scoreLE a c := by
  intro a b c hab hbc
  simp only [scoreLE, decide_eq_true_eq] at *
  exact le_trans hbc hab

theorem scoreLE_total : ∀ a b : SearchResult, scoreLE a b || scoreLE b a := by
  intro a b
  simp only [scoreLE]
  rcases le_total b.score a.score with h | h <;> simp [h]

/-- The scoring loop of `searchIndex` (`src/searcher.ts` lines 114-118):
one `SearchResult` per `IndexedItem`, in index order, scored by cosine
similarity against the query embedding. -/
noncomputable def scoreItems (queryEmbedding : Vec) (index : List IndexedItem) :
    List SearchResult :=
  index.map (fun item =>
    ⟨item.file, item.text, item.embedding,
      cosineSimilarity queryEmbedding item.embedding, none⟩)

/-- Function `findBestMatchingWord` (`src/searcher.ts` lines 69-98): among the
chunk's word tokens (no stop-word filtering here), the first one whose
vector attains the running maximum of cosine similarity against any query
token's vector; returned only if that maximum exceeds `0.5`. -/
noncomputable def findBestMatchingWord (chunkStr : String)
    (queryWords : List String) (vectors : WordVectorMap) : Option String :=
  let chunkWords := tokenize chunkStr
  if chunkWords = [] then none
  else
    let queryVectors := queryWords.filterMap (vmGet vectors)
    if queryVectors = [] then none
    else
      let best := chunkWords.foldl (fun best cw =>
        match vmGet vectors cw with
        | none => best
        | some chunkVec => queryVectors.foldl (fun b qv =>
            if b.2 < cosineSimilarity chunkVec qv
            then (cw, cosineSimilarity chunkVec qv) else b) best)
        ("", (-1 : ℝ))
      if (0.5 : ℝ) < best.2 then some best.1 else none

/-- The tail of `searchIndex` after the query embedding is fixed: stable
sort by descending score, `slice(0, topK)`, then the highlight-word pass
over the returned results (`src/searcher.ts` lines 120-139). -/
noncomputable def rankAndHighlight (queryEmbedding : Vec)
    (index : List IndexedItem) (vectors : WordVectorMap)
    (queryWords : List String) (topK : ℕ) : List SearchResult :=
  (((scoreItems queryEmbedding index).mergeSort scoreLE).take topK).map
    (fun result =>
      { result with
        highlightWord := findBestMatchingWord result.text queryWords vectors })

/-- Function `searchIndex` from `src/searcher.ts` lines 100-140: empty index or empty
query → `[]`; unresolvable query → `[]`; otherwise rank by cosine score and
attach highlight words.  `queryWords` for the highlight pass are the raw
word tokens of the query (line 130, no stop-word removal). -/
noncomputable def searchIndex (query : String) (index : List IndexedItem)
    (vectors : WordVectorMap) (topK : ℕ) : List SearchResult :=
  if index.length = 0 ∨ query = "" then []
  else
    match getDocumentVector query vectors with
    | none => []
    | some queryEmbedding =>
      rankAndHighlight queryEmbedding index vectors (tokenize query) topK

theorem rankAndHighlight_sorted (queryEmbedding : Vec) (index : List IndexedItem)
    (vectors : WordVectorMap) (queryWords : List String) (topK : ℕ) :
    (rankAndHighlight queryEmbedding index vectors queryWords topK).Pairwise
      (fun u v => v.score ≤ u.score) := by
  rw [rankAndHighlight]
  have hsorted : ((scoreItems queryEmbedding index).mergeSort scoreLE).Pairwise
      (fun a b => scoreLE a b = true) :=
    List.sorted_mergeSort scoreLE_trans scoreLE_total (scoreItems queryEmbedding index)
  have htake := hsorted.sublist (List.take_sublist topK _)
  refine List.Pairwise.map _ (fun a b hab => ?_) htake
  simp only [scoreLE, decide_eq_true_eq] at hab
  exact hab

theorem rankAndHighlight_length (queryEmbedding : Vec) (index : List IndexedItem)
    (vectors : WordVectorMap) (queryWords : List String) (topK : ℕ) :
    (rankAndHighlight queryEmbedding index vectors queryWords topK).length
      = min topK index.length := by
  simp [rankAndHighlight, scoreItems]

/-- C2: `searchIndex` returns a list sorted non-increasingly by score,
of length at most `min topK |index|`; the underlying sort is stable, so
score ties keep their original index order; and an empty index, an empty
query, or a query with no resolvable token each yield `[]` rather than an
error. -/
theorem c2_searchIndex_spec (query : String) (index : List IndexedItem)
    (vectors : WordVectorMap) (topK : ℕ) :
    (searchIndex query index vectors topK).Pairwise (fun u v => v.score ≤ u.score)
    ∧ (searchIndex query index vectors topK).length ≤ min topK index.length
    ∧ (∀ (queryEmbedding : Vec) (a b : SearchResult),
        List.Sublist [a, b] (scoreItems queryEmbedding index) → a.score = b.score →
        List.Sublist [a, b] ((scoreItems queryEmbedding index).mergeSort scoreLE))
    ∧ ((index = [] ∨ query = "" ∨ getDocumentVector query vectors = none) →
        searchIndex query index vectors topK = []) := by
  refine ⟨?_, ?_, ?_, ?_⟩
  · rw [searchIndex]
    by_cases hg : index.length = 0 ∨ query = ""
    · rw [if_pos hg]; exact List.Pairwise.nil
    · rw [if_neg hg]
      cases getDocumentVector query vectors with
      | none => exact List.Pairwise.nil
      | some qe => exact rankAndHighlight_sorted qe index vectors (tokenize query) topK
  · rw [searchIndex]
    by_cases hg : index.length = 0 ∨ query = ""
    · rw [if_pos hg]; simp
    · rw [if_neg hg]
      cases getDocumentVector query vectors with
      | none => simp
      | some qe => rw [rankAndHighlight_length]
  · intro qe a b hsub heq
    exact List.pair_sublist_mergeSort scoreLE_trans scoreLE_total
      (by simp only [scoreLE, decide_eq_true_eq]; exact le_of_eq heq.symm) hsub
  · intro h
    rw [searchIndex]
    by_cases hg : index.length = 0 ∨ query = ""
    · rw [if_pos hg]
    · rw [if_neg hg]
      rcases h with h | h | h
      · exact absurd (Or.inl (by simp [h])) hg
      · exact absurd (Or.inr h) hg
      · rw [h]

/-- Witness for C2: singleton index, empty query. -/
theorem c2_searchIndex_spec_witness :
    searchIndex "" [⟨"f", "t", [(1:ℝ)]⟩] [] 10 = [] :=
  (c2_searchIndex_spec "" [⟨"f", "t", [(1:ℝ)]⟩] [] 10).2.2.2 (Or.inr (Or.inl rfl))

/-- Modelled from the spec: the searcher module currently imported as
`./searcher` by `src/semantic-search-provider.ts` — which calls
`searchIndex(query, index, vectors, count, principalComponent)` with a fifth
argument (lines 69-75) — is not present under `src/`; only its
four-parameter predecessor is.  Per spec §4.5 step 1 and §4.2, that searcher
applies the *stored* principal component to the query vector,
`v' = v − (v·u)u`, exactly as chunk vectors were corrected at build time,
before computing similarities; with no stored component the query vector is
used as is. -/
noncomputable def searchIndexPc (query : String) (index : List IndexedItem)
    (vectors : WordVectorMap) (topK : ℕ) (principalComponent : Option Vec) :
    List SearchResult :=
  if index.length = 0 ∨ query = "" then []
  else
    match getDocumentVector query vectors with
    | none => []
    | some queryEmbedding =>
      let corrected := match principalComponent with
        | some u => subtractProjection u queryEmbedding
        | none => queryEmbedding
      rankAndHighlight corrected index vectors (tokenize query) topK

/-- C1: under SIF, index building stores the computed principal
component and subtracts its projection (`subtractProjection`) from every
chunk vector, and searching applies the *same* `subtractProjection` with
the stored component to the query vector before ranking — the correction is
taken from the stored component, not recomputed per query. -/
theorem c1_sif_query_correction (pca : List Vec → Vec) (embs : List Vec)
    (query : String) (vectors : WordVectorMap) (qv u : Vec)
    (index : List IndexedItem) (topK : ℕ)
    (hne : embs ≠ []) (hq : getDocumentVector query vectors = some qv) :
    sifPostProcess pca embs
      = (embs.map (subtractProjection (pca embs)), some (pca embs))
    ∧ searchIndexPc query index vectors topK (some u)
      = rankAndHighlight (subtractProjection u qv) index vectors (tokenize query) topK := by
  constructor
  · rw [sifPostProcess, if_pos (List.length_pos.mpr hne)]
  · rw [searchIndexPc]
    by_cases hg : index.length = 0 ∨ query = ""
    · rw [if_pos hg]
      rcases hg with hg | hg
      · have : index = [] := List.length_eq_zero.mp hg
        rw [this, rankAndHighlight]
        simp [scoreItems]
      · rw [hg] at hq
        have : getDocumentVector "" vectors = none := rfl
        rw [this] at hq
        exact absurd hq (by simp)
    · rw [if_neg hg, hq]

/-- Witness for C1: one chunk embedding `[1]`, table `{cat ↦ [1]}`,
query `"cat"`, stored component `[1]`. -/
theorem c1_sif_query_correction_witness :
    ([[(1:ℝ)]] ≠ ([] : List Vec))
    ∧ getDocumentVector "cat" [("cat", [(1:ℝ)])] = some [(1:ℝ)]
    ∧ (sifPostProcess (fun _ => [(1:ℝ)]) [[(1:ℝ)]]
        = ([[(1:ℝ)]].map (subtractProjection ((fun (_ : List Vec) => [(1:ℝ)]) [[(1:ℝ)]])),
            some ((fun (_ : List Vec) => [(1:ℝ)]) [[(1:ℝ)]]))
      ∧ searchIndexPc "cat" [⟨"f", "t", [(1:ℝ)]⟩] [("cat", [(1:ℝ)])] 10 (some [(1:ℝ)])
        = rankAndHighlight (subtractProjection [(1:ℝ)] [(1:ℝ)])
            [⟨"f", "t", [(1:ℝ)]⟩] [("cat", [(1:ℝ)])] (tokenize "cat") 10) := by
  have hq : getDocumentVector "cat" [("cat", [(1:ℝ)])] = some [(1:ℝ)] := by
    have h1 : (tokenize "cat").filter (fun w => !(STOPWORDS.contains w)) = ["cat"] := by
      rfl
    rw [getDocumentVector, h1]
    exact getAverageVector_single "cat" [(1:ℝ)] [("cat", [(1:ℝ)])] rfl
  exact ⟨by simp, hq,
    c1_sif_query_correction (fun _ => [(1:ℝ)]) [[(1:ℝ)]] "cat" [("cat", [(1:ℝ)])]
      [(1:ℝ)] [(1:ℝ)] [⟨"f", "t", [(1:ℝ)]⟩] 10 (by simp) hq⟩

/-- The in-memory state of `SemanticSearchProvider` that `search` reads:
the feature flag, the loaded vector table, the loaded index, and the
principal component stored by the last index build (loaded from the PCA
sidecar file or set by `buildIndex`, never recomputed per query). -/
structure ProviderState where
  enableSemanticSearch : Bool
  vectors : Option WordVectorMap
  index : Option (List IndexedItem)
  sifPrincipalComponent : Option Vec

/-- Models `text.length > 150 ? text.substring(0, 147) + "..." : text`. -/
def truncate150 (text : String) : String :=
  if 150 < text.length then String.mk (text.data.take 147) ++ "..." else text

/-- Function `createContextSnippet` (`src/semantic-search-provider.ts` lines 13-37).
The `text.match(regex)` step is abstracted as the parameter `rm`, returning
the match index if any (the construction of the `RegExp` from the highlight
word is JS-specific and irrelevant to the claims); `Math.max(0, idx - 40)`
is natural-number truncated subtraction. -/
def createContextSnippet (rm : String → String → Option ℕ) (text : String)
    (highlightWord : Option String) : String :=
  match highlightWord with
  | none => truncate150 text
  | some w =>
    match rm text w with
    | none => truncate150 text
    | some idx =>
      let start := idx - 40
      let stop := min text.length (idx + w.length + 40)
      let core := String.mk ((text.data.drop start).take (stop - start))
      let withPre := if 0 < start then "..." ++ core else core
      if stop < text.length then withPre ++ "..." else withPre

/-- The display record returned by `SemanticSearchProvider.search`
(lines 94-102). -/
structure DisplayResult where
  title : String
  path : String
  context : String
  highlightWord : Option String

/-- Models `file.name.replace(/\.md$/, "")`. -/
def stripMdSuffix (name : String) : String :=
  if name.endsWith ".md" then String.mk (name.data.take (name.length - 3)) else name

/-- The per-item display mapping of `search` (lines 94-102); `fileName`
abstracts `app.vault.getAbstractFileByPath(item.file)?.name`. -/
def toDisplay (rm : String → String → Option ℕ) (fileName : String → Option String)
    (item : SearchResult) : DisplayResult :=
  { title := match fileName item.file with
      | some nm => stripMdSuffix nm
      | none => item.file
    path := item.file
    context := createContextSnippet rm item.text item.highlightWord
    highlightWord := item.highlightWord }

/-- The de-duplication loop of `search` (lines 77-85): a JS `Map` keyed by
`result.file`, first (highest-ranked) occurrence wins, insertion order
preserved. -/
def dedupByFile (l : List SearchResult) : List SearchResult :=
  l.foldl
    (fun acc r => if acc.any (fun x => x.file == r.file) then acc else acc ++ [r]) []

/-- Method `SemanticSearchProvider.search` (`src/semantic-search-provider.ts`
lines 51-103): disabled feature, missing model/index or empty index →
`[]`; otherwise fetch `CHUNK_CANDIDATE_COUNT = 100` candidates from the
searcher (passing the stored principal component), keep the first candidate
per file, slice to `topK`, and map to the display format. -/
noncomputable def providerSearch (rm : String → String → Option ℕ)
    (fileName : String → Option String) (st : ProviderState) (query : String)
    (topK : ℕ) : List DisplayResult :=
  if st.enableSemanticSearch = false then []
  else
    match st.vectors, st.index with
    | some vectors, some index =>
      if index.length = 0 then []
      else
        ((dedupByFile (searchIndexPc query index vectors 100
            st.sifPrincipalComponent)).take topK).map (toDisplay rm fileName)
    | _, _ => []

theorem dedupByFile_go_spec : ∀ (l acc : List SearchResult) (r : SearchResult),
    r ∈ l.foldl
      (fun acc r => if acc.any (fun x => x.file == r.file) then acc else acc ++ [r])
      acc →
    r ∈ acc ∨ ((acc.any (fun x => x.file == r.file)) = false
      ∧ l.find? (fun x => x.file == r.file) = some r) := by
  intro l
  induction l with
  | nil => intro acc r hr; exact Or.inl hr
  | cons h t ih =>
    intro acc r hr
    simp only [List.foldl_cons] at hr
    by_cases hc : acc.any (fun x => x.file == h.file)
    · rw [if_pos hc] at hr
      rcases ih acc r hr with hin | ⟨hany, hfind⟩
      · exact Or.inl hin
      · refine Or.inr ⟨hany, ?_⟩
        rw [List.find?_cons_of_neg, hfind]
        intro hhr
        have heq : h.file = r.file := by simpa using hhr
        have h2 : acc.any (fun x => x.file == h.file) = false := by
          rw [heq]; exact hany
        rw [h2] at hc
        exact absurd hc (by simp)
    · rw [if_neg hc] at hr
      rcases ih (acc ++ [h]) r hr with hin | ⟨hany, hfind⟩
      · rcases List.mem_append.mp hin with hin | hin
        · exact Or.inl hin
        · have hrh : r = h := by simpa using hin
          subst hrh
          refine Or.inr ⟨by simpa using hc, ?_⟩
          rw [List.find?_cons_of_pos]
          simp
      · have hany' : acc.any (fun x => x.file == r.file) = false := by
          rw [List.any_append] at hany
          exact (Bool.or_eq_false_iff.mp hany).1
        refine Or.inr ⟨hany', ?_⟩
        have hhr : (h.file == r.file) = false := by
          rw [List.any_append] at hany
          have := (Bool.or_eq_false_iff.mp hany).2
          simpa using this
        rw [List.find?_cons_of_neg, hfind]
        simp [hhr]

theorem dedupByFile_find (l : List SearchResult) (r : SearchResult)
    (hr : r ∈ dedupByFile l) :
    l.find? (fun x => x.file == r.file) = some r := by
  rcases dedupByFile_go_spec l [] r hr with hin | ⟨_, hfind⟩
  · exact absurd hin (List.not_mem_nil r)
  · exact hfind

theorem dedupByFile_go_nodup : ∀ (l acc : List SearchResult),
    ((acc.map (·.file)).Nodup) →
    (((l.foldl
      (fun acc r => if acc.any (fun x => x.file == r.file) then acc else acc ++ [r])
      acc).map (·.file)).Nodup) := by
  intro l
  induction l with
  | nil => intro acc h; exact h
  | cons h t ih =>
    intro acc hacc
    simp only [List.foldl_cons]
    by_cases hc : acc.any (fun x => x.file == h.file)
    · rw [if_pos hc]; exact ih acc hacc
    · rw [if_neg hc]
      apply ih
      rw [List.map_append]
      apply List.Nodup.append hacc (by simp)
      intro a ha hb
      have hb' : a = h.file := by simpa using hb
      rcases List.mem_map.mp ha with ⟨x, hx, hxa⟩
      apply hc
      exact List.any_eq_true.mpr ⟨x, hx, by simp [hxa, hb']⟩

theorem dedupByFile_files_nodup (l : List SearchResult) :
    ((dedupByFile l).map (·.file)).Nodup :=
  dedupByFile_go_nodup l [] (by simp)

theorem find_first_max_score : ∀ (l : List SearchResult)
    (p : SearchResult → Bool) (r : SearchResult),
    l.Pairwise (fun u v => v.score ≤ u.score) →
    l.find? p = some r →
    ∀ x ∈ l, p x → x.score ≤ r.score := by
  intro l
  induction l with
  | nil => intro p r _ hfind; simp at hfind
  | cons h t ih =>
    intro p r hpair hfind x hx hpx
    rcases List.pairwise_cons.mp hpair with ⟨hhead, htail⟩
    by_cases hph : p h
    · rw [List.find?_cons_of_pos _ hph] at hfind
      have hrh : r = h := by simpa using hfind.symm
      subst hrh
      rcases List.mem_cons.mp hx with rfl | hx
      · exact le_refl _
      · exact hhead x hx
    · rw [List.find?_cons_of_neg _ hph] at hfind
      rcases List.mem_cons.mp hx with rfl | hx
      · exact absurd hpx (by simpa using hph)
      · exact ih p r htail hfind x hx hpx

theorem searchIndexPc_sorted (query : String) (index : List IndexedItem)
    (vectors : WordVectorMap) (topK : ℕ) (pc : Option Vec) :
    (searchIndexPc query index vectors topK pc).Pairwise
      (fun u v => v.score ≤ u.score) := by
  rw [searchIndexPc]
  by_cases hg : index.length = 0 ∨ query = ""
  · rw [if_pos hg]; exact List.Pairwise.nil
  · rw [if_neg hg]
    cases getDocumentVector query vectors with
    | none => exact List.Pairwise.nil
    | some qe =>
      cases pc with
      | none => exact rankAndHighlight_sorted qe index vectors (tokenize query) topK
      | some u =>
        exact rankAndHighlight_sorted (subtractProjection u qe) index vectors
          (tokenize query) topK

/-- C10: the provider-level search returns at most `topK` results, with
pairwise-distinct file paths; each de-duplicated candidate is exactly the
first occurrence of its file in the score-sorted candidate list, and hence
scores at least as high as every other chunk of the same file among the
candidates. -/
theorem c10_provider_dedup (rm : String → String → Option ℕ)
    (fileName : String → Option String) (st : ProviderState) (query : String)
    (topK : ℕ) :
    (providerSearch rm fileName st query topK).length ≤ topK
    ∧ ((providerSearch rm fileName st query topK).map (·.path)).Nodup
    ∧ (∀ (vectors : WordVectorMap) (index : List IndexedItem),
        st.vectors = some vectors → st.index = some index →
        ∀ r ∈ dedupByFile (searchIndexPc query index vectors 100
            st.sifPrincipalComponent),
          (searchIndexPc query index vectors 100
              st.sifPrincipalComponent).find? (fun x => x.file == r.file) = some r
          ∧ ∀ x ∈ searchIndexPc query index vectors 100 st.sifPrincipalComponent,
              x.file = r.file → x.score ≤ r.score) := by
  refine ⟨?_, ?_, ?_⟩
  · rw [providerSearch]
    by_cases he : st.enableSemanticSearch = false
    · rw [if_pos he]; simp
    · rw [if_neg he]
      cases st.vectors with
      | none => simp
      | some vectors =>
        cases st.index with
        | none => simp
        | some index =>
          dsimp only
          by_cases hi : index.length = 0
          · rw [if_pos hi]; simp
          · rw [if_neg hi]
            rw [List.length_map, List.length_take]
            exact min_le_left _ _
  · rw [providerSearch]
    by_cases he : st.enableSemanticSearch = false
    · rw [if_pos he]; simp
    · rw [if_neg he]
      cases st.vectors with
      | none => simp
      | some vectors =>
        cases st.index with
        | none => simp
        | some index =>
          dsimp only
          by_cases hi : index.length = 0
          · rw [if_pos hi]; simp
          · rw [if_neg hi]
            have h1 : (((dedupByFile (searchIndexPc query index vectors 100
                st.sifPrincipalComponent)).take topK).map (toDisplay rm fileName)).map
                  (·.path)
                = ((dedupByFile (searchIndexPc query index vectors 100
                    st.sifPrincipalComponent)).take topK).map (·.file) := by
              rw [List.map_map]
              rfl
            rw [h1]
            apply List.Nodup.sublist
              (List.Sublist.map _ (List.take_sublist topK _))
            exact dedupByFile_files_nodup _
  · intro vectors index _ _ r hr
    refine ⟨dedupByFile_find _ r hr, ?_⟩
    intro x hx hfile
    exact find_first_max_score _ _ r
      (searchIndexPc_sorted query index vectors 100 st.sifPrincipalComponent)
      (dedupByFile_find _ r hr) x hx (by simp [hfile])

/-- Witness for C10 at a concrete provider state and query. -/
theorem c10_provider_dedup_witness :
    (providerSearch (fun _ _ => none) (fun _ => none)
        ⟨true, some [("cat", [(1:ℝ)])], some [⟨"f", "t", [(1:ℝ)]⟩], none⟩
        "the" 10).length ≤ 10
    ∧ ((providerSearch (fun _ _ => none) (fun _ => none)
        ⟨true, some [("cat", [(1:ℝ)])], some [⟨"f", "t", [(1:ℝ)]⟩], none⟩
        "the" 10).map (·.path)).Nodup :=
  ⟨(c10_provider_dedup (fun _ _ => none) (fun _ => none)
      ⟨true, some [("cat", [(1:ℝ)])], some [⟨"f", "t", [(1:ℝ)]⟩], none⟩ "the" 10).1,
    (c10_provider_dedup (fun _ _ => none) (fun _ => none)
      ⟨true, some [("cat", [(1:ℝ)])], some [⟨"f", "t", [(1:ℝ)]⟩], none⟩ "the" 10).2.1⟩

/-- Models `Set.add` on the insertion-ordered duplicate-free list model of a JS
`Set` (also `finalVocab[word] = true` on a Go `map[string]bool`). -/
def jsSetAdd (s : List String) (w : String) : List String :=
  if w ∈ s then s else s ++ [w]

theorem mem_jsSetAdd (s : List String) (x w : String) :
    w ∈ jsSetAdd s x ↔ w ∈ s ∨ w = x := by
  rw [jsSetAdd]
  by_cases h : x ∈ s
  · rw [if_pos h]
    constructor
    · exact Or.inl
    · rintro (hw | rfl)
      · exact hw
      · exact h
  · rw [if_neg h]
    simp

theorem mem_foldl_jsSetAdd : ∀ (l acc : List String) (w : String),
    w ∈ l.foldl jsSetAdd acc ↔ w ∈ acc ∨ w ∈ l := by
  intro l
  induction l with
  | nil => intro acc w; simp
  | cons x l ih =>
    intro acc w
    rw [List.foldl_cons, ih, mem_jsSetAdd]
    constructor
    · rintro ((h | h) | h)
      · exact Or.inl h
      · subst h
        exact Or.inr (List.mem_cons_self _ _)
      · exact Or.inr (List.mem_cons_of_mem x h)
    · rintro (h | h)
      · exact Or.inl (Or.inl h)
      · rcases List.mem_cons.mp h with rfl | h
        · exact Or.inl (Or.inr rfl)
        · exact Or.inr h

theorem foldl_jsSetAdd_eq_append : ∀ (l acc : List String),
    (∀ x ∈ l, x ∉ acc) → l.Nodup → l.foldl jsSetAdd acc = acc ++ l := by
  intro l
  induction l with
  | nil => intro acc _ _; simp
  | cons x l ih =>
    intro acc hdisj hnd
    rw [List.foldl_cons]
    have hx : x ∉ acc := hdisj x (List.mem_cons_self x l)
    have hstep : jsSetAdd acc x = acc ++ [x] := by rw [jsSetAdd, if_neg hx]
    rw [hstep, ih (acc ++ [x]) ?_ (List.Nodup.of_cons hnd)]
    · rw [List.append_assoc]
      rfl
    · intro y hy
      rw [List.mem_append]
      rintro (hya | hyx)
      · exact hdisj y (List.mem_cons_of_mem x hy) hya
      · have : y = x := by simpa using hyx
        subst this
        exact (List.nodup_cons.mp hnd).1 hy

theorem length_filter_add_length_filter_not (l : List String) (p : String → Bool) :
    (l.filter p).length + (l.filter (fun x => !(p x))).length = l.length := by
  induction l with
  | nil => rfl
  | cons x l ih =>
    cases hp : p x <;> simp [List.filter_cons, hp] <;> omega

/-- Function `pruneFinalVocab` from the pruner (`src/unnamed/part_008` lines
191-204): if the candidate vocabulary exceeds the cap, shuffle the
neighbor-only words (candidates not in the vault vocabulary), drop the
first `finalVocab.size - maxVocabSize` of them, and return
`new Set([...vaultVocab, ...keptNeighbors])`.  `Math.random`-driven
`shuffleArray` is abstracted as the `shuffle` parameter (any permutation —
`shuffleOK`). -/
def pruneFinalVocab (shuffle : List String → List String)
    (finalVocab vaultVocab : List String) (maxVocabSize : ℕ) : List String :=
  if maxVocabSize < finalVocab.length then
    let neighborsOnly := finalVocab.filter (fun x => decide (x ∉ vaultVocab))
    let numToRemove := finalVocab.length - maxVocabSize
    if 0 < numToRemove then
      (vaultVocab ++ (shuffle neighborsOnly).drop numToRemove).foldl jsSetAdd []
    else finalVocab
  else finalVocab

/-- A shuffle is a permutation (what Fisher–Yates / `rand.Shuffle`
guarantee). -/
def shuffleOK (shuffle : List String → List String) : Prop :=
  ∀ l, (shuffle l).Perm l

/-- The capping step of `runPrune` in `src/glove-tool.go` lines 143-166:
`neighborsToKeep = cap - len(vaultVocab)` (clamped at `0`, which is exactly
ℕ-subtraction), the neighbor list is shuffled and its first
`neighborsToKeep` entries are added back to a fresh copy of the vault
vocabulary.  Go's nondeterministic map iteration order composed with
`rand.Shuffle` is abstracted as the single `shuffle` permutation. -/
def goCapVocab (shuffle : List String → List String)
    (vaultVocab neighborVocab : List String) (cap : ℕ) : List String :=
  let finalVocab0 := (vaultVocab ++ neighborVocab).foldl jsSetAdd []
  if cap < finalVocab0.length then
    (vaultVocab ++ (shuffle neighborVocab).take (cap - vaultVocab.length)).foldl
      jsSetAdd []
  else finalVocab0

/-- C4: capping never evicts a target (vault) word and adds nothing new:
the TS `pruneFinalVocab` keeps every vault word, returns a subset of the
candidates, and — whenever the candidates exceed the cap and the targets fit
under it — lands exactly on the cap; the Go `runPrune` capping likewise
keeps every vault word and (with neighbor candidates distinct from the
targets, as in the spec scenario) lands exactly on the cap.  Instantiating
with 10 targets, 15 candidates and cap 12 gives the spec's scenario 4. -/
theorem c4_capping (shuffle : List String → List String) (fv vv nv : List String)
    (cap : ℕ) (hsh : shuffleOK shuffle) (hfv : fv.Nodup) (hvv : vv.Nodup)
    (hsub : ∀ w ∈ vv, w ∈ fv) (hcap : vv.length ≤ cap)
    (hnv : nv.Nodup) (hdisj : ∀ w ∈ nv, w ∉ vv) :
    (∀ w ∈ vv, w ∈ pruneFinalVocab shuffle fv vv cap)
    ∧ (∀ w ∈ pruneFinalVocab shuffle fv vv cap, w ∈ fv)
    ∧ (cap < fv.length → (pruneFinalVocab shuffle fv vv cap).length = cap)
    ∧ (∀ w ∈ vv, w ∈ goCapVocab shuffle vv nv cap)
    ∧ (cap < ((vv ++ nv).foldl jsSetAdd []).length →
        (goCapVocab shuffle vv nv cap).length = cap) := by
  have hkept_sub : ∀ w ∈ (shuffle (fv.filter (fun x => decide (x ∉ vv)))).drop
      (fv.length - cap), w ∈ fv.filter (fun x => decide (x ∉ vv)) := by
    intro w hw
    have h1 : w ∈ shuffle (fv.filter (fun x => decide (x ∉ vv))) :=
      (List.drop_sublist _ _).subset hw
    exact ((hsh _).mem_iff).mp h1
  have hkept_fv : ∀ w ∈ (shuffle (fv.filter (fun x => decide (x ∉ vv)))).drop
      (fv.length - cap), w ∈ fv := fun w hw => (List.mem_filter.mp (hkept_sub w hw)).1
  have hkept_nvv : ∀ w ∈ (shuffle (fv.filter (fun x => decide (x ∉ vv)))).drop
      (fv.length - cap), w ∉ vv := by
    intro w hw
    have := (List.mem_filter.mp (hkept_sub w hw)).2
    simpa using this
  refine ⟨?_, ?_, ?_, ?_, ?_⟩
  · intro w hwv
    rw [pruneFinalVocab]
    by_cases hg : cap < fv.length
    · rw [if_pos hg, if_pos (by omega)]
      rw [mem_foldl_jsSetAdd]
      exact Or.inr (List.mem_append.mpr (Or.inl hwv))
    · rw [if_neg hg]
      exact hsub w hwv
  · intro w hw
    rw [pruneFinalVocab] at hw
    by_cases hg : cap < fv.length
    · rw [if_pos hg, if_pos (by omega)] at hw
      rw [mem_foldl_jsSetAdd] at hw
      rcases hw with hw | hw
      · exact absurd hw (List.not_mem_nil w)
      · rcases List.mem_append.mp hw with hw | hw
        · exact hsub w hw
        · exact hkept_fv w hw
    · rw [if_neg hg] at hw
      exact hw
  · intro hg
    rw [pruneFinalVocab, if_pos hg, if_pos (by omega)]
    have hkept_nodup : ((shuffle (fv.filter (fun x => decide (x ∉ vv)))).drop
        (fv.length - cap)).Nodup :=
      ((List.drop_sublist _ _).nodup
        (((hsh _).nodup_iff).mpr (hfv.filter _)))
    have happ_nodup : (vv ++ (shuffle (fv.filter (fun x => decide (x ∉ vv)))).drop
        (fv.length - cap)).Nodup := by
      refine List.Nodup.append hvv hkept_nodup ?_
      intro a hav hak
      exact hkept_nvv a hak hav
    rw [foldl_jsSetAdd_eq_append _ [] (by simp) happ_nodup, List.nil_append,
      List.length_append]
    have hfilter_perm : (fv.filter (fun x => decide (x ∈ vv))).Perm vv := by
      refine (List.perm_ext_iff_of_nodup (hfv.filter _) hvv).mpr ?_
      intro a
      rw [List.mem_filter]
      constructor
      · rintro ⟨_, ha⟩
        simpa using ha
      · intro ha
        exact ⟨hsub a ha, by simpa using ha⟩
    have hsplit := length_filter_add_length_filter_not fv (fun x => decide (x ∈ vv))
    have hnotform : (fv.filter (fun x => !(decide (x ∈ vv))))
        = fv.filter (fun x => decide (x ∉ vv)) := by
      apply List.filter_congr
      intro x _
      simp
    rw [hnotform] at hsplit
    have hfl := hfilter_perm.length_eq
    have hdroplen : ((shuffle (fv.filter (fun x => decide (x ∉ vv)))).drop
        (fv.length - cap)).length
        = (fv.filter (fun x => decide (x ∉ vv))).length - (fv.length - cap) := by
      rw [List.length_drop, (hsh _).length_eq]
    rw [hdroplen]
    omega
  · intro w hwv
    rw [goCapVocab]
    by_cases hg : cap < ((vv ++ nv).foldl jsSetAdd []).length
    · rw [if_pos hg, mem_foldl_jsSetAdd]
      exact Or.inr (List.mem_append.mpr (Or.inl hwv))
    · rw [if_neg hg, mem_foldl_jsSetAdd]
      exact Or.inr (List.mem_append.mpr (Or.inl hwv))
  · intro hg
    rw [goCapVocab, if_pos hg]
    have hunion : (vv ++ nv).foldl jsSetAdd [] = vv ++ nv := by
      refine foldl_jsSetAdd_eq_append _ [] (by simp) ?_
      exact List.Nodup.append hvv hnv (fun a hav han => hdisj a han hav)
    rw [hunion, List.length_append] at hg
    have htaken_sub : ∀ w ∈ (shuffle nv).take (cap - vv.length), w ∈ nv := by
      intro w hw
      exact ((hsh nv).mem_iff).mp ((List.take_sublist _ _).subset hw)
    have htaken_nodup : ((shuffle nv).take (cap - vv.length)).Nodup :=
      (List.take_sublist _ _).nodup (((hsh nv).nodup_iff).mpr hnv)
    have happ_nodup : (vv ++ (shuffle nv).take (cap - vv.length)).Nodup :=
      List.Nodup.append hvv htaken_nodup
        (fun a hav hat => hdisj a (htaken_sub a hat) hav)
    rw [foldl_jsSetAdd_eq_append _ [] (by simp) happ_nodup, List.nil_append,
      List.length_append, List.length_take, (hsh nv).length_eq]
    omega

/-- Witness for C4: the spec's scenario 4 — 10 target words, 5 neighbor-only
candidates (15 candidates total), cap 12, identity shuffle. -/
theorem c4_capping_witness :
    (pruneFinalVocab id
        ["t1", "t2", "t3", "t4", "t5", "t6", "t7", "t8", "t9", "t10",
          "n1", "n2", "n3", "n4", "n5"]
        ["t1", "t2", "t3", "t4", "t5", "t6", "t7", "t8", "t9", "t10"] 12).length = 12
    ∧ (∀ w ∈ ["t1", "t2", "t3", "t4", "t5", "t6", "t7", "t8", "t9", "t10"],
        w ∈ pruneFinalVocab id
          ["t1", "t2", "t3", "t4", "t5", "t6", "t7", "t8", "t9", "t10",
            "n1", "n2", "n3", "n4", "n5"]
          ["t1", "t2", "t3", "t4", "t5", "t6", "t7", "t8", "t9", "t10"] 12)
    ∧ (goCapVocab id ["t1", "t2", "t3", "t4", "t5", "t6", "t7", "t8", "t9", "t10"]
        ["n1", "n2", "n3", "n4", "n5"] 12).length = 12 := by
  have h := c4_capping id
    ["t1", "t2", "t3", "t4", "t5", "t6", "t7", "t8", "t9", "t10",
      "n1", "n2", "n3", "n4", "n5"]
    ["t1", "t2", "t3", "t4", "t5", "t6", "t7", "t8", "t9", "t10"]
    ["n1", "n2", "n3", "n4", "n5"] 12
    (fun l => List.Perm.refl l) (by decide) (by decide) (by decide) (by decide)
    (by decide) (by decide)
  exact ⟨h.2.2.1 (by decide), h.1, h.2.2.2.2 (by decide)⟩

/-- Constant `TOP_L_NEIGHBORS = 5`. -/
def TOP_L_NEIGHBORS : ℕ := 5

/-- Constant `CHECKPOINT_INTERVAL = 1000`. -/
def CHECKPOINT_INTERVAL : ℕ := 1000

/-- The mutable state threaded through `findAndWriteNeighbors`
(`src/unnamed/part_008`): the candidate vocabulary (`finalVocab`), the
processed-word set, and — for the spec claims — the trace of persisted
checkpoints `(wordsDone, processedVaultWords, finalVocab)` recorded by each
`saveCheckpointAndAppend` call. -/
structure PruneState where
  finalVocab : List String
  processedVaultWords : List String
  checkpoints : List (ℕ × List String × List String)

/-- The similarity comparator `(a, b) => b.score - a.score` of the pruner's
sort, as a boolean order. -/
noncomputable def simLE (a b : String × ℝ) : Bool :=
  @decide (b.2 ≤ a.2) (Classical.propDecidable _)

/-- The neighbor-accumulation part of one loop iteration of
`findAndWriteNeighbors` (lines 119-139): if the word has a vector, score
every table entry (iterating `allGloveWords` with `get!` is iterating the
map's entries, keys being unique), sort by descending score, and add the
entries at positions `1 ≤ j < 1 + TOP_L_NEIGHBORS` whose score exceeds the
threshold; otherwise leave the vocabulary unchanged. -/
noncomputable def processWordVocab (fullGloveMap : WordVectorMap) (threshold : ℝ)
    (fv : List String) (word : String) : List String :=
  match vmGet fullGloveMap word with
  | some wordVec =>
    (((((fullGloveMap.map (fun p => (p.1, cosineSimilarity wordVec p.2))).mergeSort
        simLE).drop 1).take TOP_L_NEIGHBORS).foldl
      (fun acc p => if threshold < p.2 then jsSetAdd acc p.1 else acc) fv)
  | none => fv

/-- One full iteration of the `findAndWriteNeighbors` loop body (lines
117-140): `finalVocab.add(word)` happens *before* the vector lookup, then
neighbors are accumulated, then the word is marked processed. -/
noncomputable def processWord (fullGloveMap : WordVectorMap) (threshold : ℝ)
    (st : PruneState) (word : String) : PruneState :=
  { finalVocab := processWordVocab fullGloveMap threshold
      (jsSetAdd st.finalVocab word) word
    processedVaultWords := jsSetAdd st.processedVaultWords word
    checkpoints := st.checkpoints }

/-- The loop body including the checkpoint cadence (lines 142-145):
`saveCheckpointAndAppend` runs when `(i + 1) % CHECKPOINT_INTERVAL === 0`
or `i + 1 === wordsToProcess.length` (`total` below). -/
noncomputable def pruneStep (fullGloveMap : WordVectorMap) (threshold : ℝ)
    (total : ℕ) (st : PruneState) (iw : ℕ × String) : PruneState :=
  let st2 := processWord fullGloveMap threshold st iw.2
  if (iw.1 + 1) % CHECKPOINT_INTERVAL = 0 ∨ iw.1 + 1 = total then
    { st2 with checkpoints :=
        st2.checkpoints ++ [(iw.1 + 1, st2.processedVaultWords, st2.finalVocab)] }
  else st2

/-- Function `findAndWriteNeighbors` (lines 103-147): fold the loop body over the
indexed word list. -/
noncomputable def findAndWriteNeighbors (fullGloveMap : WordVectorMap)
    (threshold : ℝ) (wordsToProcess : List String) (st : PruneState) : PruneState :=
  wordsToProcess.enum.foldl
    (pruneStep fullGloveMap threshold wordsToProcess.length) st

/-- Function `getWordsToProcess` (lines 74-82): the vault's unique words (a JS `Set`
fed from the scanned word stream) minus the already-processed words. -/
def getWordsToProcess (vaultWords processedVaultWords : List String) : List String :=
  (vaultWords.foldl jsSetAdd []).filter (fun w => decide (w ∉ processedVaultWords))

theorem mem_foldl_step {β : Type} (f : List String → β → List String)
    (hf : ∀ (acc : List String) (b : β) (w : String), w ∈ acc → w ∈ f acc b) :
    ∀ (l : List β) (acc : List String) (w : String), w ∈ acc → w ∈ l.foldl f acc := by
  intro l
  induction l with
  | nil => exact fun acc w h => h
  | cons b l ih => exact fun acc w h => ih _ _ (hf acc b w h)

theorem mem_processWordVocab_of_mem (fullGloveMap : WordVectorMap) (threshold : ℝ)
    (fv : List String) (word w : String) (h : w ∈ fv) :
    w ∈ processWordVocab fullGloveMap threshold fv word := by
  rw [processWordVocab]
  cases vmGet fullGloveMap word with
  | none => exact h
  | some wordVec =>
    apply mem_foldl_step
    · intro acc p w hw
      by_cases hp : threshold < p.2
      · rw [if_pos hp, mem_jsSetAdd]
        exact Or.inl hw
      · rw [if_neg hp]
        exact hw
    · exact h

theorem processWord_finalVocab_mono (fullGloveMap : WordVectorMap) (threshold : ℝ)
    (st : PruneState) (word w : String) (h : w ∈ st.finalVocab) :
    w ∈ (processWord fullGloveMap threshold st word).finalVocab := by
  apply mem_processWordVocab_of_mem
  rw [mem_jsSetAdd]
  exact Or.inl h

theorem pruneStep_finalVocab_mono (fullGloveMap : WordVectorMap) (threshold : ℝ)
    (total : ℕ) (st : PruneState) (iw : ℕ × String) (w : String)
    (h : w ∈ st.finalVocab) :
    w ∈ (pruneStep fullGloveMap threshold total st iw).finalVocab := by
  rw [pruneStep]
  by_cases hc : (iw.1 + 1) % CHECKPOINT_INTERVAL = 0 ∨ iw.1 + 1 = total
  · rw [if_pos hc]
    exact processWord_finalVocab_mono fullGloveMap threshold st iw.2 w h
  · rw [if_neg hc]
    exact processWord_finalVocab_mono fullGloveMap threshold st iw.2 w h

theorem pruneStep_checkpoints (fullGloveMap : WordVectorMap) (threshold : ℝ)
    (total : ℕ) (st : PruneState) (iw : ℕ × String) :
    (pruneStep fullGloveMap threshold total st iw).checkpoints
      = if (iw.1 + 1) % CHECKPOINT_INTERVAL = 0 ∨ iw.1 + 1 = total then
          st.checkpoints ++ [(iw.1 + 1,
            (processWord fullGloveMap threshold st iw.2).processedVaultWords,
            (processWord fullGloveMap threshold st iw.2).finalVocab)]
        else st.checkpoints := by
  rw [pruneStep]
  by_cases hc : (iw.1 + 1) % CHECKPOINT_INTERVAL = 0 ∨ iw.1 + 1 = total
  · rw [if_pos hc, if_pos hc]
    rfl
  · rw [if_neg hc, if_neg hc]
    rfl

theorem foldl_pruneStep_checkpoints_fst (fullGloveMap : WordVectorMap)
    (threshold : ℝ) (total : ℕ) :
    ∀ (ps : List (ℕ × String)) (st : PruneState),
    ((ps.foldl (pruneStep fullGloveMap threshold total) st).checkpoints).map (·.1)
      = st.checkpoints.map (·.1)
        ++ (ps.map (fun iw => iw.1 + 1)).filter
            (fun n => decide (n % CHECKPOINT_INTERVAL = 0 ∨ n = total)) := by
  intro ps
  induction ps with
  | nil => intro st; simp
  | cons iw ps ih =>
    intro st
    rw [List.foldl_cons, ih, List.map_cons, List.filter_cons]
    by_cases hc : (iw.1 + 1) % CHECKPOINT_INTERVAL = 0 ∨ iw.1 + 1 = total
    · rw [if_pos (by simpa using hc)]
      rw [pruneStep_checkpoints, if_pos hc, List.map_append]
      simp
    · rw [if_neg (by simpa using hc)]
      rw [pruneStep_checkpoints, if_neg hc]

theorem mem_foldl_pruneStep_finalVocab (fullGloveMap : WordVectorMap)
    (threshold : ℝ) (total : ℕ) :
    ∀ (ps : List (ℕ × String)) (st : PruneState) (w : String),
    w ∈ st.finalVocab →
    w ∈ (ps.foldl (pruneStep fullGloveMap threshold total) st).finalVocab := by
  intro ps
  induction ps with
  | nil => exact fun st w h => h
  | cons iw ps ih =>
    intro st w h
    exact ih _ w (pruneStep_finalVocab_mono fullGloveMap threshold total st iw w h)

/-- C5: resuming processes only vault words not in
`processedVaultWords`; the checkpointed candidate vocabulary is retained
(the loop only adds to `finalVocab`); and the checkpoint is persisted
exactly at every multiple of `CHECKPOINT_INTERVAL = 1000` processed words
and at completion of the word list. -/
theorem c5_checkpoint_resume (fullGloveMap : WordVectorMap) (threshold : ℝ)
    (vaultWords : List String) (st : PruneState) (hck : st.checkpoints = []) :
    (∀ w ∈ getWordsToProcess vaultWords st.processedVaultWords,
        w ∉ st.processedVaultWords)
    ∧ (∀ w ∈ st.finalVocab,
        w ∈ (findAndWriteNeighbors fullGloveMap threshold
          (getWordsToProcess vaultWords st.processedVaultWords) st).finalVocab)
    ∧ ((findAndWriteNeighbors fullGloveMap threshold
          (getWordsToProcess vaultWords st.processedVaultWords) st).checkpoints.map
            (·.1)
        = ((List.range
              (getWordsToProcess vaultWords st.processedVaultWords).length).map
            (· + 1)).filter
            (fun n => decide (n % CHECKPOINT_INTERVAL = 0
              ∨ n = (getWordsToProcess vaultWords
                  st.processedVaultWords).length))) := by
  refine ⟨?_, ?_, ?_⟩
  · intro w hw
    rw [getWordsToProcess] at hw
    have := List.of_mem_filter hw
    simpa using this
  · intro w hw
    rw [findAndWriteNeighbors]
    exact mem_foldl_pruneStep_finalVocab fullGloveMap threshold _ _ st w hw
  · rw [findAndWriteNeighbors, foldl_pruneStep_checkpoints_fst, hck]
    rw [List.map_nil, List.nil_append]
    congr 1
    rw [← List.enum_map_fst (getWordsToProcess vaultWords st.processedVaultWords),
      List.map_map]
    rfl

/-- Witness for C5 at a concrete initial state and vault. -/
theorem c5_checkpoint_resume_witness :
    (∀ w ∈ getWordsToProcess ["x"] ([] : List String), w ∉ ([] : List String))
    ∧ ((findAndWriteNeighbors [] 0 (getWordsToProcess ["x"] [])
          ⟨[], [], []⟩).checkpoints.map (·.1)
        = ((List.range (getWordsToProcess ["x"] ([] : List String)).length).map
            (· + 1)).filter
            (fun n => decide (n % CHECKPOINT_INTERVAL = 0
              ∨ n = (getWordsToProcess ["x"] ([] : List String)).length))) :=
  ⟨(c5_checkpoint_resume [] 0 ["x"] ⟨[], [], []⟩ rfl).1,
    (c5_checkpoint_resume [] 0 ["x"] ⟨[], [], []⟩ rfl).2.2⟩

/-- C6 counterexample: a target word absent from the embedding table
does *not* contribute nothing: `finalVocab.add(word)` runs before the
vector lookup, so the word itself enters the candidate vocabulary. -/
theorem c6_absent_word_counterexample :
    (processWord [] 0 ⟨[], [], []⟩ "x").finalVocab = ["x"]
    ∧ (processWord [] 0 ⟨[], [], []⟩ "x").finalVocab ≠ [] := by
  have h : (processWord [] 0 ⟨[], [], []⟩ "x").finalVocab = ["x"] := by
    rw [processWord]
    show processWordVocab [] 0 (jsSetAdd [] "x") "x" = ["x"]
    rw [processWordVocab]
    rfl
  exact ⟨h, by rw [h]; simp⟩

/-- C6 amended: for a target word `w` with no vector in the table,
the Searching phase marks `w` processed and adds *no neighbor* — but it
does add `w` itself to the candidate vocabulary (and nothing else); the
checkpoints are untouched by the loop body proper. -/
theorem c6_absent_word_amended (fullGloveMap : WordVectorMap) (threshold : ℝ)
    (st : PruneState) (word : String) (h : vmGet fullGloveMap word = none) :
    (processWord fullGloveMap threshold st word).finalVocab
      = jsSetAdd st.finalVocab word
    ∧ (processWord fullGloveMap threshold st word).processedVaultWords
      = jsSetAdd st.processedVaultWords word
    ∧ (processWord fullGloveMap threshold st word).checkpoints = st.checkpoints := by
  refine ⟨?_, rfl, rfl⟩
  rw [processWord]
  show processWordVocab fullGloveMap threshold (jsSetAdd st.finalVocab word) word = _
  rw [processWordVocab, h]

/-- Witness for C6's amended claim at the empty table and word `"x"`. -/
theorem c6_absent_word_amended_witness :
    vmGet [] "x" = none
    ∧ ((processWord [] 0 ⟨["a"], [], []⟩ "x").finalVocab = jsSetAdd ["a"] "x"
      ∧ (processWord [] 0 ⟨["a"], [], []⟩ "x").processedVaultWords = jsSetAdd [] "x"
      ∧ (processWord [] 0 ⟨["a"], [], []⟩ "x").checkpoints = []) :=
  ⟨rfl, c6_absent_word_amended [] 0 ⟨["a"], [], []⟩ "x" rfl⟩

end Clau
